import Mathlib

/-!
# A verification development for `directed_graph.hpp`

The C++ header implements a directed graph over a dense adjacency matrix,
instantiated here at `T = int`.

Modelling conventions

* Vertex ids are `int` in the source; the development covers the non-negative
  ids, which are modelled as `Nat`.  Weights (`T = int`) and the edge counter
  are modelled as unbounded `Int`: no arithmetic on them is performed other
  than `edgeCount ± 1`.
* `std::vector` is a `List`.  A read `v[i]` is `List.getD v i 0` and a write
  `v[i] = x` is `List.set v i x`; for `i` within the size of the vector these
  are the C++ semantics, and the statements below are about ids within the
  capacity.  The one array whose bounds differ from the capacity, the
  `visited` array of `depth_first`, has an explicit out-of-range result.
* `for (int i = lo; i < hi; i++)` is `forRange lo hi`.
-/

namespace DirectedGraph

/-- The class `vertex<int>`: an id and a weight. -/
structure vertex where
  id : Nat
  weight : Int
deriving DecidableEq

/-- The data members of `directed_graph<int>`. -/
structure directed_graph where
  adj_matrix : List (List Int)
  vertex_weights : List Int
  edgeCount : Int
deriving DecidableEq

/-- The loop `for (int i = lo; i < hi; i++) s = body i s`. -/
def forRange {σ : Type} (lo hi : Nat) (body : Nat → σ → σ) (s : σ) : σ :=
  (List.range' lo (hi - lo)).foldl (fun acc i => body i acc) s

/-- The call `v.resize(n)` on a vector of `int` (new elements are value-initialised). -/
def resize {α : Type} (v : List α) (n : Nat) (d : α) : List α :=
  v.take n ++ List.replicate (n - v.length) d

/-- The read `adj_matrix[i][j]`. -/
def cell (m : List (List Int)) (i j : Nat) : Int :=
  (m.getD i []).getD j 0

/-- The write `adj_matrix[i][j] = x`. -/
def setCell (m : List (List Int)) (i j : Nat) (x : Int) : List (List Int) :=
  m.set i ((m.getD i []).set j x)

namespace directed_graph

/-- The constructor `directed_graph()`: capacity 100, no vertex, no edge. -/
def init : directed_graph :=
  let initial_capacity := 100
  { adj_matrix :=
      forRange 0 initial_capacity
        (fun i m => forRange 0 initial_capacity (fun j m => setCell m i j 0)
          (m.set i (resize (m.getD i []) initial_capacity 0)))
        (resize [] initial_capacity [])
    vertex_weights :=
      forRange 0 initial_capacity (fun i w => w.set i 0) (resize [] initial_capacity 0)
    edgeCount := 0 }

/-- The method `increaseCapacity()`. -/
def increaseCapacity (g : directed_graph) : directed_graph :=
  let old_capacity := g.vertex_weights.length
  let new_capacity := 2 * old_capacity
  -- Step 1a
  let m1 := resize g.adj_matrix new_capacity []
  let m2 := forRange 0 m1.length (fun i m => m.set i (resize (m.getD i []) new_capacity 0)) m1
  -- Step 1b
  let m3 := forRange 0 old_capacity
    (fun i m => forRange old_capacity new_capacity (fun j m => setCell m i j 0) m) m2
  let m4 := forRange old_capacity new_capacity
    (fun i m => forRange 0 new_capacity (fun j m => setCell m i j 0) m) m3
  -- Step 2a
  let w1 := resize g.vertex_weights new_capacity 0
  -- Step 2b
  let w2 := forRange old_capacity new_capacity (fun i w => w.set i 0) w1
  { adj_matrix := m4, vertex_weights := w2, edgeCount := g.edgeCount }

/-- The method `contains(u_id)`: `vertex_weights[u_id] > 0`. -/
def contains (g : directed_graph) (u_id : Nat) : Bool :=
  decide (0 < g.vertex_weights.getD u_id 0)

/-- The method `adjacent(u_id, v_id)`. -/
def adjacent (g : directed_graph) (u_id v_id : Nat) : Bool :=
  if g.contains u_id && g.contains v_id then decide (0 < cell g.adj_matrix u_id v_id)
  else false

/-- The loop of `add_vertex`: `while (u.id > vertex_weights.size() - 1) increaseCapacity();`.
The comparison is made in `size_t`, where `size() - 1` of an empty vector is the
largest value and no id exceeds it.  The first argument bounds the number of
iterations; `add_vertex` passes `u.id + 1`, which the loop never exhausts
(`growLoop_exits`). -/
def growLoop : Nat → directed_graph → Nat → directed_graph
  | 0, g, _ => g
  | fuel + 1, g, id =>
    if g.vertex_weights.length ≠ 0 ∧ g.vertex_weights.length - 1 < id then
      growLoop fuel (increaseCapacity g) id
    else g

/-- The method `add_vertex(u)`. -/
def add_vertex (g : directed_graph) (u : vertex) : directed_graph :=
  let g1 := growLoop (u.id + 1) g u.id
  { g1 with vertex_weights := g1.vertex_weights.set u.id u.weight }

/-- The method `add_edge(u_id, v_id, edge_weight)`. -/
def add_edge (g : directed_graph) (u_id v_id : Nat) (edge_weight : Int) : directed_graph :=
  if g.contains u_id && g.contains v_id then
    { g with adj_matrix := setCell g.adj_matrix u_id v_id edge_weight
             edgeCount := g.edgeCount + 1 }
  else g

/-- The method `remove_vertex(u_id)`. -/
def remove_vertex (g : directed_graph) (u_id : Nat) : directed_graph :=
  { g with vertex_weights := g.vertex_weights.set u_id 0 }

/-- The method `remove_edge(u_id, v_id)`. -/
def remove_edge (g : directed_graph) (u_id v_id : Nat) : directed_graph :=
  if g.contains u_id && g.contains v_id then
    { g with adj_matrix := setCell g.adj_matrix u_id v_id 0
             edgeCount := g.edgeCount - 1 }
  else g

/-- The method `in_degree(u_id)`. -/
def in_degree (g : directed_graph) (u_id : Nat) : Nat :=
  if g.contains u_id then
    forRange 0 (g.adj_matrix.getD u_id []).length
      (fun i total_in => if 0 < cell g.adj_matrix i u_id then total_in + 1 else total_in) 0
  else 0

/-- The method `out_degree(u_id)`. -/
def out_degree (g : directed_graph) (u_id : Nat) : Nat :=
  if g.contains u_id then
    forRange 0 (g.adj_matrix.getD u_id []).length
      (fun i total_out => if 0 < cell g.adj_matrix u_id i then total_out + 1 else total_out) 0
  else 0

/-- The method `degree(u_id)`. -/
def degree (g : directed_graph) (u_id : Nat) : Nat :=
  g.in_degree u_id + g.out_degree u_id

/-- The method `num_vertices()`. -/
def num_vertices (g : directed_graph) : Nat :=
  forRange 0 g.vertex_weights.length
    (fun i total => if 0 < g.vertex_weights.getD i 0 then total + 1 else total) 0

/-- The method `num_edges()`: the `int` counter converted to `size_t`. -/
def num_edges (g : directed_graph) : Nat :=
  (g.edgeCount % 2 ^ 64).toNat


/-- The method `get_vertices()`. -/
def get_vertices (g : directed_graph) : List vertex :=
  forRange 0 g.vertex_weights.length
    (fun i vertice_list =>
      if 0 < g.vertex_weights.getD i 0 then
        vertice_list ++ [⟨i, g.vertex_weights.getD i 0⟩]
      else vertice_list) []

/-- The call `dup.erase(dup.begin() + pos)` on the storage of the vector: `buf` is
the storage (it keeps the length the vector had when the loop started) and `size`
the number of live elements.  The live elements after `pos` move down one slot and
the slot of the last live element keeps its content. -/
def vecErase (buf : List vertex) (size pos : Nat) : List vertex × Nat :=
  if pos < size then
    ((buf.take size).eraseIdx pos ++ buf.drop (size - 1), size - 1)
  else (buf, size)

/-- The first loop of `get_neighbours`: the vertices `i` of row `u_id` whose cell
is positive, in the order of the scan. -/
def scanRow (g : directed_graph) (u_id : Nat) : List vertex :=
  forRange 0 (g.adj_matrix.getD u_id []).length
    (fun i dup =>
      if 0 < cell g.adj_matrix u_id i then dup ++ [⟨i, g.vertex_weights.getD i 0⟩] else dup) []

/-- The second loop of `get_neighbours`, `for (vertex<T> a : dup)` with an erase in
its body.  The range-for fixes its begin and end when it starts, so it makes
`dup.size()` steps over the storage of `dup`, and `pos` is the number of the
step. -/
def eraseSelf (u_id : Nat) (dup : List vertex) : List vertex :=
  let st := forRange 0 dup.length
    (fun pos (st : List vertex × Nat) =>
      match st.1[pos]? with
      | some a => if a.id = u_id then vecErase st.1 st.2 pos else st
      | none => st) (dup, dup.length)
  st.1.take st.2

/-- The method `get_neighbours(u_id)`. -/
def get_neighbours (g : directed_graph) (u_id : Nat) : List vertex :=
  if g.contains u_id then eraseSelf u_id (scanRow g u_id) else []

/-- The method `get_second_order_neighbours(u_id)`. -/
def get_second_order_neighbours (g : directed_graph) (u_id : Nat) : List vertex :=
  let first_orders := g.get_neighbours u_id
  first_orders.foldl
    (fun second_orders x =>
      forRange 0 (g.adj_matrix.getD x.id []).length
        (fun i second_orders =>
          if 0 < cell g.adj_matrix x.id i then
            if i ≠ u_id then
              let is_duplicate := second_orders.any (fun v => v.id == i)
              if !is_duplicate then second_orders ++ [⟨i, g.vertex_weights.getD i 0⟩]
              else second_orders
            else second_orders
          else second_orders) second_orders) []

/-- The stub `reachable(u_id, v_id)`. -/
def reachable (_g : directed_graph) (_u_id _v_id : Nat) : Bool := false

/-- The stub `contain_cycles()`. -/
def contain_cycles (_g : directed_graph) : Bool := false

end directed_graph

/-- What a call of `depth_first` does: it returns the vector `ordered`, or it
indexes the array `visited` outside its `num_vertices()` entries, or the bound on
the number of pops of the model is used up. -/
inductive traversal where
  | ordered (l : List vertex)
  | out_of_range
  | out_of_fuel
deriving DecidableEq

namespace directed_graph

/-- The `while (!unprocessed.empty())` loop of `depth_first`.  The stack
`unprocessed` is a list with its top at the head; the first argument bounds the
number of pops.  The loop that prints the unvisited indices when the stack is
empty changes no variable and is left out. -/
def dfsLoop (g : directed_graph) :
    Nat → List Bool → List Nat → List vertex → traversal
  | _, _, [], ordered => traversal.ordered ordered
  | 0, _, _ :: _, _ => traversal.out_of_fuel
  | fuel + 1, visited, index :: unprocessed, ordered =>
    match visited[index]? with
    | none => traversal.out_of_range
    | some false =>
      dfsLoop g fuel (visited.set index true)
        (if 0 < g.out_degree index then
          (g.get_neighbours index).foldl (fun st nb => nb.id :: st) unprocessed
         else unprocessed)
        (ordered ++ [⟨index, g.vertex_weights.getD index 0⟩])
    | some true => dfsLoop g fuel visited unprocessed ordered

/-- A bound on the number of pops of `depth_first`: the start vertex and one pop
for every entry of the neighbour list of every index of `visited`. -/
def dfsFuel (g : directed_graph) : Nat :=
  1 + forRange 0 g.num_vertices (fun i n => n + (g.get_neighbours i).length) 0

/-- The method `depth_first(u_id)`. -/
def depth_first (g : directed_graph) (u_id : Nat) : traversal :=
  if g.contains u_id then
    dfsLoop g g.dfsFuel (List.replicate g.num_vertices false) [u_id] []
  else traversal.ordered []

/-- The method `get_index(u)`. -/
def get_index (g : directed_graph) (u : Int) : Nat :=
  match (List.range g.vertex_weights.length).find? (fun i => g.vertex_weights.getD i 0 == u) with
  | some i => i
  | none => 0

/-- The stub `breadth_first(u_id)`. -/
def breadth_first (_g : directed_graph) (_u_id : Nat) : List vertex := []

end directed_graph

open directed_graph

/-- The graph has a capacity: the weight vector is not empty and the matrix is
square of the same size.  Every graph the methods build from the constructor is
of this form. -/
def WF (g : directed_graph) : Prop :=
  0 < g.vertex_weights.length ∧ g.adj_matrix.length = g.vertex_weights.length ∧
    ∀ row ∈ g.adj_matrix, row.length = g.vertex_weights.length

instance (g : directed_graph) : Decidable (WF g) := by
  unfold WF; exact inferInstance

/-- The number of ordered pairs `(u, v)` of ids below the capacity for which
`adjacent(u, v)` is true. -/
def adjacentPairs (g : directed_graph) : Nat :=
  ((List.range g.vertex_weights.length).map (fun u =>
    ((List.range g.vertex_weights.length).filter (fun v => g.adjacent u v)).length)).sum

/-- The matrix and weight vector `increaseCapacity` builds from a graph of capacity `n`. -/
def grown (g : directed_graph) : directed_graph :=
  { adj_matrix :=
      g.adj_matrix.map (fun row => row ++ List.replicate g.vertex_weights.length 0) ++
        List.replicate g.vertex_weights.length (List.replicate (2 * g.vertex_weights.length) 0)
    vertex_weights := g.vertex_weights ++ List.replicate g.vertex_weights.length 0
    edgeCount := g.edgeCount }

/-- Vertices 0 and 1 with the weights 10 and 20, and the edge 0 -> 1 of weight 5. -/
def edge_0_1 : directed_graph :=
  add_edge (add_vertex (add_vertex init ⟨0, 10⟩) ⟨1, 20⟩) 0 1 5

/-- Vertices 0 and 1 and the call `add_edge(0, 1, 1)` made twice. -/
def edge_added_twice : directed_graph :=
  add_edge (add_edge (add_vertex (add_vertex init ⟨0, 10⟩) ⟨1, 20⟩) 0 1 1) 0 1 1

/-- Vertices 0 and 1, the edge 0 -> 1 and a self-loop at 1. -/
def self_loop_neighbour : directed_graph :=
  add_edge (add_edge (add_vertex (add_vertex init ⟨0, 10⟩) ⟨1, 20⟩) 0 1 1) 1 1 1

/-- The single vertex 5 in the graph the constructor builds. -/
def sparse_id : directed_graph :=
  add_vertex init ⟨5, 10⟩

/-- Vertices 0, 1 and 2, the edge 0 -> 1, and then `remove_vertex(1)`. -/
def removed_target : directed_graph :=
  remove_vertex
    (add_edge (add_vertex (add_vertex (add_vertex init ⟨0, 10⟩) ⟨1, 20⟩) ⟨2, 30⟩) 0 1 1) 1

/-- The pops the loop of `depth_first` still owes to the entries of `visited` that
are false: the sum of the lengths of the neighbour lists of the indices `k`,
`k + 1`, ... whose entry is false. -/
def dfsWork (g : directed_graph) : Nat → List Bool → Nat
  | _, [] => 0
  | k, b :: t => (if b then 0 else (g.get_neighbours k).length) + dfsWork g (k + 1) t

/-- The graphs the constructor and the mutating methods build. -/
inductive Reachable : directed_graph → Prop where
  | init : Reachable directed_graph.init
  | add_vertex (g : directed_graph) (u : vertex) :
      Reachable g → Reachable (g.add_vertex u)
  | add_edge (g : directed_graph) (u v : Nat) (w : Int) :
      Reachable g → Reachable (g.add_edge u v w)
  | remove_vertex (g : directed_graph) (u : Nat) :
      Reachable g → Reachable (g.remove_vertex u)
  | remove_edge (g : directed_graph) (u v : Nat) :
      Reachable g → Reachable (g.remove_edge u v)
  | increaseCapacity (g : directed_graph) :
      Reachable g → Reachable g.increaseCapacity

/-- Vertices 0, 1 and 2 with the weights 10, 20 and 30, no edge. -/
def three_vertices : directed_graph :=
  add_vertex (add_vertex (add_vertex init ⟨0, 10⟩) ⟨1, 20⟩) ⟨2, 30⟩

/-- The example of the specification: vertices 0, 1 and 2 with the weights 10, 20
and 30, and the edges 0 -> 1, 1 -> 2 and 0 -> 2 of weight 1. -/
def example_graph : directed_graph :=
  add_edge (add_edge (add_edge three_vertices 0 1 1) 1 2 1) 0 2 1

/-- The example of the specification with the edge 2 -> 0 added. -/
def cycle_graph : directed_graph :=
  add_edge example_graph 2 0 1

theorem forRange_nil {σ : Type} (lo hi : Nat) (body : Nat → σ → σ) (s : σ) (h : hi ≤ lo) :
    forRange lo hi body s = s := by
  unfold forRange
  rw [Nat.sub_eq_zero_of_le h]
  rfl

theorem forRange_succ_left {σ : Type} (lo hi : Nat) (body : Nat → σ → σ) (s : σ) (h : lo < hi) :
    forRange lo hi body s = forRange (lo + 1) hi body (body lo s) := by
  unfold forRange
  have : hi - lo = (hi - (lo + 1)) + 1 := by omega
  rw [this, List.range'_succ]
  rfl

theorem forRange_split {σ : Type} (lo mid hi : Nat) (body : Nat → σ → σ) (s : σ)
    (h1 : lo ≤ mid) (h2 : mid ≤ hi) :
    forRange lo hi body s = forRange mid hi body (forRange lo mid body s) := by
  unfold forRange
  have : hi - lo = (hi - mid) + (mid - lo) := by omega
  rw [this, ← List.range'_append_1, List.foldl_append]
  have e : lo + (mid - lo) = mid := by omega
  rw [e]

theorem forRange_invariant {σ : Type} (P : σ → Prop) (lo hi : Nat) (body : Nat → σ → σ) (s : σ)
    (hs : P s) (hstep : ∀ i t, lo ≤ i → i < hi → P t → P (body i t)) :
    P (forRange lo hi body s) := by
  by_cases h : lo < hi
  · have : ∀ k, ∀ lo s, hi - lo = k → P s → (∀ i t, lo ≤ i → i < hi → P t → P (body i t)) → P (forRange lo hi body s) := by
      intro k
      induction k with
      | zero => intro lo s hk hs _; rw [forRange_nil _ _ _ _ (by omega)]; exact hs
      | succ k ih =>
        intro lo s hk hs hstep
        rw [forRange_succ_left _ _ _ _ (by omega)]
        exact ih (lo + 1) _ (by omega) (hstep lo s (le_refl _) (by omega) hs)
          (fun i t h1 h2 => hstep i t (by omega) h2)
    exact this _ lo s rfl hs hstep
  · rw [forRange_nil _ _ _ _ (by omega)]; exact hs

theorem forRange_eq_self {σ : Type} (lo hi : Nat) (body : Nat → σ → σ) (s : σ)
    (h : ∀ i, lo ≤ i → i < hi → body i s = s) : forRange lo hi body s = s :=
  forRange_invariant (fun t => t = s) lo hi body s rfl (fun i t h1 h2 ht => by rw [ht]; exact h i h1 h2)


theorem set_getD_self {α : Type} (l : List α) (i : Nat) (d x : α) (h : l.getD i d = x) :
    l.set i x = l := by
  induction l generalizing i with
  | nil => rfl
  | cons a t ih =>
    cases i with
    | zero => simp at h; simp [h]
    | succ i => simp at h; simp; exact ih i (by simpa using h)

theorem setCell_eq_self (m : List (List Int)) (i j : Nat) (x : Int) (h : cell m i j = x) :
    setCell m i j x = m := by
  unfold setCell
  unfold cell at h
  rw [set_getD_self _ j 0 x h]
  exact set_getD_self m i [] _ rfl

theorem forRange_set_map_aux {α : Type} (f : α → α) (body : Nat → List α → List α)
    (suf : List α) : ∀ (pre : List α),
    (∀ x ∈ suf, ∀ p s : List α, body p.length (p ++ x :: s) = p ++ f x :: s) →
    forRange pre.length (pre.length + suf.length) body (pre ++ suf) = pre ++ suf.map f := by
  induction suf with
  | nil => intro pre _; simp [forRange_nil]
  | cons a t ih =>
    intro pre h
    rw [forRange_succ_left _ _ _ _ (by simp)]
    rw [h a (by simp) pre t]
    have := ih (pre ++ [f a]) (fun x hx => h x (List.mem_cons_of_mem _ hx))
    simp only [List.length_append, List.length_singleton, List.append_assoc, List.singleton_append] at this
    simp only [List.length_cons, List.map_cons]
    rw [← this]
    congr 1
    omega

theorem forRange_set_map {α : Type} (f : α → α) (body : Nat → List α → List α) (l : List α)
    (h : ∀ x ∈ l, ∀ p s : List α, body p.length (p ++ x :: s) = p ++ f x :: s) :
    forRange 0 l.length body l = l.map f := by
  have := forRange_set_map_aux f body l [] h
  simpa using this

theorem set_length_append {α : Type} (p s : List α) (x y : α) :
    (p ++ x :: s).set p.length y = p ++ y :: s := by
  induction p with
  | nil => rfl
  | cons a t ih => simp [ih]

theorem getD_length_append {α : Type} (p s : List α) (x d : α) :
    (p ++ x :: s).getD p.length d = x := by
  induction p with
  | nil => rfl
  | cons a t ih => simpa using ih

theorem resize_nil {α : Type} (n : Nat) (d : α) : resize [] n d = List.replicate n d := by
  simp [resize]

theorem init_weights (n : Nat) :
    forRange 0 n (fun i (w : List Int) => w.set i 0) (resize [] n 0) = List.replicate n 0 := by
  rw [resize_nil]
  apply forRange_eq_self
  intro i _ _
  apply set_getD_self _ _ 0
  simp [List.getElem?_replicate]
  split <;> rfl

theorem init_matrix (n : Nat) :
    forRange 0 n
        (fun i (m : List (List Int)) => forRange 0 n (fun j m => setCell m i j 0)
          (m.set i (resize (m.getD i []) n 0)))
        (resize [] n []) = List.replicate n (List.replicate n 0) := by
  rw [resize_nil]
  have h := forRange_set_map (fun _ : List Int => List.replicate n (0 : Int))
    (fun i (m : List (List Int)) => forRange 0 n (fun j m => setCell m i j 0)
          (m.set i (resize (m.getD i []) n 0)))
    (List.replicate n []) (by
      intro x hx p s
      have hx0 : x = [] := List.eq_of_mem_replicate hx
      subst hx0
      simp only [getD_length_append, set_length_append, resize_nil]
      apply forRange_eq_self
      intro j _ _
      apply setCell_eq_self
      unfold cell
      rw [getD_length_append]
      simp [List.getElem?_replicate]
      split <;> rfl)
  simp only [List.length_replicate] at h
  rw [h]
  simp

/-- The constructor builds the all-zero matrix and weight vector of capacity 100. -/
theorem init_eq : init =
    { adj_matrix := List.replicate 100 (List.replicate 100 0)
      vertex_weights := List.replicate 100 0
      edgeCount := 0 } := by
  unfold init
  simp only [init_matrix, init_weights]


theorem cell_of_row_short (m : List (List Int)) (i j : Nat)
    (h : (m.getD i []).length ≤ j) : cell m i j = 0 := by
  unfold cell
  exact List.getD_eq_default _ _ h

theorem WF.row_length {g : directed_graph} (h : WF g) (i : Nat)
    (hi : i < g.vertex_weights.length) :
    (g.adj_matrix.getD i []).length = g.vertex_weights.length := by
  obtain ⟨_, h2, h3⟩ := h
  rw [List.getD_eq_getElem _ _ (by omega)]
  exact h3 _ (List.getElem_mem _)

theorem WF.cell_eq_zero {g : directed_graph} (h : WF g) (i j : Nat)
    (hij : g.vertex_weights.length ≤ i ∨ g.vertex_weights.length ≤ j) :
    cell g.adj_matrix i j = 0 := by
  by_cases hi : i < g.vertex_weights.length
  · apply cell_of_row_short
    rw [h.row_length i hi]
    omega
  · unfold cell
    rw [List.getD_eq_default g.adj_matrix [] (by have := h.2.1; omega)]
    rfl

theorem getD_append_replicate {α : Type} (l : List α) (n i : Nat) (d : α) :
    (l ++ List.replicate n d).getD i d = l.getD i d := by
  by_cases h : i < l.length
  · rw [List.getD_append _ _ _ _ h]
  · rw [List.getD_append_right _ _ _ _ (by omega), List.getD_eq_default l _ (by omega)]
    simp [List.getElem?_replicate]
    split <;> rfl

theorem getD_replicate_self {α : Type} (n i : Nat) (d : α) :
    (List.replicate n d).getD i d = d := by
  simp [List.getElem?_replicate]
  split <;> rfl

theorem grown_cell (g : directed_graph) (h : WF g) (i j : Nat) :
    cell (grown g).adj_matrix i j = cell g.adj_matrix i j := by
  unfold grown cell
  simp only
  by_cases hi : i < g.vertex_weights.length
  · have hi2 : i < g.adj_matrix.length := by have := h.2.1; omega
    rw [List.getD_append _ _ _ _ (by simpa using hi2)]
    have : (List.map (fun row => row ++ List.replicate g.vertex_weights.length (0 : Int)) g.adj_matrix).getD i []
        = g.adj_matrix.getD i [] ++ List.replicate g.vertex_weights.length 0 := by
      rw [List.getD_eq_getElem _ _ (by simpa using hi2), List.getD_eq_getElem _ _ hi2]
      simp
    rw [this, getD_append_replicate]
  · rw [List.getD_append_right _ _ _ _ (by have := h.2.1; simp; omega)]
    rw [List.getD_eq_default g.adj_matrix _ (by have := h.2.1; omega)]
    have : ∀ k, ((List.replicate g.vertex_weights.length
        (List.replicate (2 * g.vertex_weights.length) (0 : Int))).getD k []).getD j 0 = 0 := by
      intro k
      simp only [List.getD_eq_getElem?_getD, List.getElem?_replicate]
      split
      · simp [List.getElem?_replicate]; split <;> rfl
      · rfl
    rw [this]
    rfl

theorem grown_WF (g : directed_graph) (h : WF g) : WF (grown g) := by
  obtain ⟨h1, h2, h3⟩ := h
  refine ⟨?_, ?_, ?_⟩
  · simp [grown]; omega
  · simp [grown, h2]
  · intro row hrow
    simp only [grown, List.mem_append, List.mem_map, List.length_append, List.length_replicate] at hrow ⊢
    rcases hrow with ⟨r, hr, rfl⟩ | hrow
    · simp [h3 r hr]
    · rw [List.eq_of_mem_replicate hrow]; simp; omega

theorem increaseCapacity_eq (g : directed_graph) (h : WF g) : increaseCapacity g = grown g := by
  have hlen := h.2.1
  have hrows := h.2.2
  have hm1 : resize g.adj_matrix (2 * g.vertex_weights.length) [] =
      g.adj_matrix ++ List.replicate g.vertex_weights.length [] := by
    unfold resize
    rw [List.take_of_length_le (by omega), hlen]
    congr 2
    omega
  have hm2 : forRange 0 (resize g.adj_matrix (2 * g.vertex_weights.length) []).length
      (fun i (m : List (List Int)) =>
        m.set i (resize (m.getD i []) (2 * g.vertex_weights.length) 0))
      (resize g.adj_matrix (2 * g.vertex_weights.length) []) = (grown g).adj_matrix := by
    rw [forRange_set_map (fun row => resize row (2 * g.vertex_weights.length) 0)]
    · rw [hm1, List.map_append]
      unfold grown
      simp only
      congr 1
      · apply List.map_congr_left
        intro row hrow
        unfold resize
        rw [List.take_of_length_le (by rw [hrows row hrow]; omega), hrows row hrow]
        congr 2
        omega
      · simp [resize]
    · intro x _ p s
      simp only [getD_length_append, set_length_append]
  have hw1 : resize g.vertex_weights (2 * g.vertex_weights.length) 0 =
      (grown g).vertex_weights := by
    unfold resize grown
    rw [List.take_of_length_le (by omega)]
    congr 2
    omega
  unfold increaseCapacity
  simp only [hm2, hw1]
  have hm3 : forRange 0 g.vertex_weights.length
      (fun i (m : List (List Int)) =>
        forRange g.vertex_weights.length (2 * g.vertex_weights.length)
          (fun j m => setCell m i j 0) m) (grown g).adj_matrix = (grown g).adj_matrix := by
    apply forRange_eq_self
    intro i _ hi
    apply forRange_eq_self
    intro j hj _
    apply setCell_eq_self
    rw [grown_cell g h]
    exact h.cell_eq_zero i j (Or.inr hj)
  rw [hm3]
  have hm4 : forRange g.vertex_weights.length (2 * g.vertex_weights.length)
      (fun i (m : List (List Int)) =>
        forRange 0 (2 * g.vertex_weights.length)
          (fun j m => setCell m i j 0) m) (grown g).adj_matrix = (grown g).adj_matrix := by
    apply forRange_eq_self
    intro i hi _
    apply forRange_eq_self
    intro j _ _
    apply setCell_eq_self
    rw [grown_cell g h]
    exact h.cell_eq_zero i j (Or.inl hi)
  rw [hm4]
  have hw2 : forRange g.vertex_weights.length (2 * g.vertex_weights.length)
      (fun i (w : List Int) => w.set i 0) (grown g).vertex_weights = (grown g).vertex_weights := by
    apply forRange_eq_self
    intro i hi _
    apply set_getD_self _ _ 0
    unfold grown
    simp only
    rw [getD_append_replicate]
    exact List.getD_eq_default _ _ hi
  rw [hw2]
  rfl


theorem grown_weight (g : directed_graph) (i : Nat) :
    (grown g).vertex_weights.getD i 0 = g.vertex_weights.getD i 0 := by
  unfold grown
  exact getD_append_replicate _ _ _ _

theorem grown_length (g : directed_graph) :
    (grown g).vertex_weights.length = 2 * g.vertex_weights.length := by
  simp [grown]; omega

/-- What the loop of `add_vertex` keeps: the graph stays square, the capacity does
not shrink, and every weight, every cell and the edge counter read the same (an
index outside the old capacity read 0 before and reads 0 after). -/
theorem growLoop_spec (fuel : Nat) : ∀ (g : directed_graph) (id : Nat), WF g →
    WF (growLoop fuel g id) ∧
    g.vertex_weights.length ≤ (growLoop fuel g id).vertex_weights.length ∧
    (∀ i, (growLoop fuel g id).vertex_weights.getD i 0 = g.vertex_weights.getD i 0) ∧
    (∀ i j, cell (growLoop fuel g id).adj_matrix i j = cell g.adj_matrix i j) ∧
    (growLoop fuel g id).edgeCount = g.edgeCount := by
  induction fuel with
  | zero => intro g id h; exact ⟨h, le_refl _, fun _ => rfl, fun _ _ => rfl, rfl⟩
  | succ fuel ih =>
    intro g id h
    unfold growLoop
    split
    · rw [increaseCapacity_eq g h]
      obtain ⟨a, b, c, d, e⟩ := ih (grown g) id (grown_WF g h)
      refine ⟨a, ?_, ?_, ?_, ?_⟩
      · rw [grown_length] at b; omega
      · intro i; rw [c i, grown_weight]
      · intro i j; rw [d i j, grown_cell g h]
      · rw [e]; rfl
    · exact ⟨h, le_refl _, fun _ => rfl, fun _ _ => rfl, rfl⟩

/-- The loop of `add_vertex` ends by its own test: with the bound `u.id + 1` the
capacity it reaches exceeds the id. -/
theorem growLoop_exits (fuel : Nat) : ∀ (g : directed_graph) (id : Nat), WF g →
    id < fuel + g.vertex_weights.length → id < (growLoop fuel g id).vertex_weights.length := by
  induction fuel with
  | zero => intro g id _ h; simpa [growLoop] using h
  | succ fuel ih =>
    intro g id h hlt
    unfold growLoop
    split
    · rw [increaseCapacity_eq g h]
      apply ih (grown g) id (grown_WF g h)
      rw [grown_length]
      have := h.1
      omega
    · rename_i hc
      have := h.1
      omega

theorem getD_set_self {α : Type} (l : List α) (i : Nat) (d x : α) (h : i < l.length) :
    (l.set i x).getD i d = x := by
  simp [List.getElem?_set, h]

theorem getD_set_ne {α : Type} (l : List α) (i j : Nat) (d x : α) (h : i ≠ j) :
    (l.set i x).getD j d = l.getD j d := by
  simp [List.getElem?_set, h]

theorem add_vertex_WF (g : directed_graph) (u : vertex) (h : WF g) : WF (add_vertex g u) := by
  obtain ⟨a, _⟩ := growLoop_spec (u.id + 1) g u.id h
  obtain ⟨h1, h2, h3⟩ := a
  exact ⟨by simpa [add_vertex] using h1, by simpa [add_vertex] using h2,
    by simpa [add_vertex] using h3⟩

/-- C3: an `add_vertex` whose id is at least the capacity grows the graph and keeps
its content: the result is square with a capacity above the id, every weight and
every cell below the old capacity is as before, so `contains` and `adjacent` agree
there, the weight at the id is the one added, and every other new weight and every
new cell is 0. -/
theorem add_vertex_growth_preserves_content (g : directed_graph) (u : vertex) (hwf : WF g)
    (hid : g.vertex_weights.length ≤ u.id) :
    WF (add_vertex g u) ∧ u.id < (add_vertex g u).vertex_weights.length ∧
    (∀ i, i < g.vertex_weights.length →
      (add_vertex g u).vertex_weights.getD i 0 = g.vertex_weights.getD i 0) ∧
    (∀ i j, i < g.vertex_weights.length → j < g.vertex_weights.length →
      cell (add_vertex g u).adj_matrix i j = cell g.adj_matrix i j) ∧
    (∀ i, i < g.vertex_weights.length → (add_vertex g u).contains i = g.contains i) ∧
    (∀ i j, i < g.vertex_weights.length → j < g.vertex_weights.length →
      (add_vertex g u).adjacent i j = g.adjacent i j) ∧
    (add_vertex g u).vertex_weights.getD u.id 0 = u.weight ∧
    (∀ i, g.vertex_weights.length ≤ i → i ≠ u.id →
      (add_vertex g u).vertex_weights.getD i 0 = 0) ∧
    (∀ i j, g.vertex_weights.length ≤ i ∨ g.vertex_weights.length ≤ j →
      cell (add_vertex g u).adj_matrix i j = 0) ∧
    (add_vertex g u).edgeCount = g.edgeCount := by
  obtain ⟨_, _, hw, hc, he⟩ := growLoop_spec (u.id + 1) g u.id hwf
  have hex := growLoop_exits (u.id + 1) g u.id hwf (by omega)
  have hw' : ∀ i, i ≠ u.id →
      (add_vertex g u).vertex_weights.getD i 0 = g.vertex_weights.getD i 0 := by
    intro i hi
    unfold add_vertex
    simp only
    rw [getD_set_ne _ _ _ _ _ (Ne.symm hi), hw i]
  have hcell : ∀ i j, cell (add_vertex g u).adj_matrix i j = cell g.adj_matrix i j := hc
  have hcont : ∀ i, i < g.vertex_weights.length →
      (add_vertex g u).contains i = g.contains i := by
    intro i hi
    unfold contains
    rw [hw' i (by omega)]
  refine ⟨add_vertex_WF g u hwf, by simpa [add_vertex] using hex,
    fun i hi => hw' i (by omega), fun i j _ _ => hcell i j, hcont, ?_, ?_, ?_, ?_, he⟩
  · intro i j hi hj
    unfold adjacent
    rw [hcont i hi, hcont j hj, hcell i j]
  · unfold add_vertex
    exact getD_set_self _ _ _ _ hex
  · intro i hi hne
    rw [hw' i hne]
    exact List.getD_eq_default _ _ hi
  · intro i j hij
    rw [hcell i j]
    exact hwf.cell_eq_zero i j hij


theorem foldl_push_filter {α : Type} (p : Nat → Prop) [DecidablePred p] (f : Nat → α)
    (l : List Nat) : ∀ acc : List α,
    l.foldl (fun dup i => if p i then dup ++ [f i] else dup) acc
      = acc ++ (l.filter (fun i => decide (p i))).map f := by
  induction l with
  | nil => intro acc; simp
  | cons a t ih =>
    intro acc
    simp only [List.foldl_cons, List.filter_cons]
    rw [ih]
    by_cases h : p a <;> simp [h]

theorem foldl_count_filter (p : Nat → Prop) [DecidablePred p] (l : List Nat) : ∀ acc : Nat,
    l.foldl (fun total i => if p i then total + 1 else total) acc
      = acc + (l.filter (fun i => decide (p i))).length := by
  induction l with
  | nil => intro acc; simp
  | cons a t ih =>
    intro acc
    simp only [List.foldl_cons, List.filter_cons]
    rw [ih]
    by_cases h : p a <;> simp [h]; omega

theorem forRange_count (p : Nat → Prop) [DecidablePred p] (n : Nat) :
    forRange 0 n (fun i total => if p i then total + 1 else total) 0
      = ((List.range n).filter (fun i => decide (p i))).length := by
  unfold forRange
  rw [foldl_count_filter, List.range_eq_range']
  simp

/-- The first loop of `get_neighbours` collects the positive cells of the row in
ascending order of their index. -/
theorem scanRow_eq (g : directed_graph) (u_id : Nat) :
    scanRow g u_id =
      ((List.range (g.adj_matrix.getD u_id []).length).filter
        (fun i => decide (0 < cell g.adj_matrix u_id i))).map
        (fun i => (⟨i, g.vertex_weights.getD i 0⟩ : vertex)) := by
  unfold scanRow forRange
  rw [foldl_push_filter (fun i => 0 < cell g.adj_matrix u_id i), List.range_eq_range']
  simp

theorem scanRow_ids (g : directed_graph) (u_id : Nat) :
    (scanRow g u_id).map vertex.id =
      (List.range (g.adj_matrix.getD u_id []).length).filter
        (fun i => decide (0 < cell g.adj_matrix u_id i)) := by
  rw [scanRow_eq, List.map_map]
  have : (vertex.id ∘ fun i => (⟨i, g.vertex_weights.getD i 0⟩ : vertex)) = id := rfl
  rw [this, List.map_id]

theorem getElem?_length_append {α : Type} (p s : List α) (x : α) :
    (p ++ x :: s)[p.length]? = some x := by
  induction p with
  | nil => simp
  | cons a t ih => simpa using ih

theorem eraseStep_self (u_id : Nat) (buf : List vertex) (sz i : Nat)
    (h : ∀ a, buf[i]? = some a → a.id ≠ u_id) :
    (match buf[i]? with
      | some a => if a.id = u_id then vecErase buf sz i else (buf, sz)
      | none => (buf, sz)) = (buf, sz) := by
  cases hi : buf[i]? with
  | none => rfl
  | some a => simp [h a hi]

theorem eraseSelf_of_not_mem (u_id : Nat) (dup : List vertex)
    (h : ∀ a ∈ dup, a.id ≠ u_id) : eraseSelf u_id dup = dup := by
  unfold eraseSelf
  rw [forRange_eq_self]
  · simp
  · intro i _ _
    apply eraseStep_self
    intro a ha
    exact h a (List.getElem?_mem ha)

theorem eraseSelf_of_split (u_id : Nat) (pre suf : List vertex) (x : vertex)
    (hx : x.id = u_id) (hpre : ∀ a ∈ pre, a.id ≠ u_id) (hsuf : ∀ a ∈ suf, a.id ≠ u_id) :
    eraseSelf u_id (pre ++ x :: suf) = pre ++ suf := by
  unfold eraseSelf
  have hlen : (pre ++ x :: suf).length = pre.length + 1 + suf.length := by simp; omega
  rw [forRange_split 0 pre.length _ _ _ (Nat.zero_le _) (by omega)]
  rw [forRange_eq_self 0 pre.length]
  · rw [forRange_succ_left _ _ _ _ (by omega)]
    simp only [getElem?_length_append, hx, if_true]
    have her : vecErase (pre ++ x :: suf) (pre ++ x :: suf).length pre.length
        = (pre ++ suf ++ (pre ++ x :: suf).drop (pre.length + suf.length),
            pre.length + suf.length) := by
      unfold vecErase
      rw [if_pos (by omega), List.take_length]
      have : (pre ++ x :: suf).eraseIdx pre.length = pre ++ suf := by
        rw [List.eraseIdx_append_of_length_le (le_refl _)]
        simp
      have e : pre.length + 1 + suf.length - 1 = pre.length + suf.length := by omega
      rw [this, hlen, e]
    rw [her]
    rcases suf with _ | ⟨y, t⟩
    · rw [forRange_nil _ _ _ _ (by simp)]
      simp
    · have hdrop : (pre ++ x :: y :: t).drop (pre.length + (y :: t).length)
          = (y :: t).drop t.length := by
        rw [List.drop_append]
        simp
      rw [hdrop, forRange_eq_self]
      · simp only
        rw [List.take_append_of_le_length (by simp)]
        apply List.take_of_length_le
        simp
      · intro i _ _
        apply eraseStep_self
        intro a ha
        have hmem := List.getElem?_mem ha
        rw [List.mem_append, List.mem_append] at hmem
        rcases hmem with (hm | hm) | hm
        · exact hpre a hm
        · exact hsuf a hm
        · exact hsuf a (List.mem_of_mem_drop hm)
  · intro i _ hi
    apply eraseStep_self
    intro a ha
    rw [List.getElem?_append_left hi] at ha
    exact hpre a (List.getElem?_mem ha)

/-- The erase loop of `get_neighbours` removes the entry whose id is `u_id` and no
other, when the ids of the vector are pairwise distinct. -/
theorem eraseSelf_eq_filter (u_id : Nat) (dup : List vertex)
    (hnd : (dup.map vertex.id).Nodup) :
    eraseSelf u_id dup = dup.filter (fun a => decide (a.id ≠ u_id)) := by
  by_cases h : ∃ a ∈ dup, a.id = u_id
  · obtain ⟨x, hxm, hx⟩ := h
    obtain ⟨pre, suf, rfl⟩ := List.append_of_mem hxm
    rw [List.map_append, List.map_cons] at hnd
    have hnd2 := List.nodup_append.mp hnd
    have hpre : ∀ a ∈ pre, a.id ≠ u_id := by
      intro a ha hau
      have h1 : a.id ∈ pre.map vertex.id := List.mem_map_of_mem _ ha
      have h2 : a.id ∈ x.id :: suf.map vertex.id := by rw [hau, hx]; exact List.mem_cons_self _ _
      exact hnd2.2.2 h1 h2
    have hsuf : ∀ a ∈ suf, a.id ≠ u_id := by
      intro a ha hau
      have h1 := (List.nodup_cons.mp hnd2.2.1).1
      apply h1
      rw [hx, ← hau]
      exact List.mem_map_of_mem _ ha
    rw [eraseSelf_of_split u_id pre suf x hx hpre hsuf]
    rw [List.filter_append, List.filter_cons]
    simp only [hx, ne_eq, not_true_eq_false, decide_False]
    rw [List.filter_eq_self.mpr (by simpa using hpre), List.filter_eq_self.mpr (by simpa using hsuf)]
    simp
  · have h' : ∀ a ∈ dup, a.id ≠ u_id := fun a ha hau => h ⟨a, ha, hau⟩
    rw [eraseSelf_of_not_mem u_id dup h']
    exact (List.filter_eq_self.mpr (by simpa using h')).symm

theorem scanRow_nodup (g : directed_graph) (u_id : Nat) :
    ((scanRow g u_id).map vertex.id).Nodup := by
  rw [scanRow_ids]
  exact (List.nodup_range _).filter _

/-- The list `get_neighbours` returns: the positive cells of the row of an existing
vertex, without the vertex itself. -/
theorem get_neighbours_eq (g : directed_graph) (u_id : Nat) :
    g.get_neighbours u_id =
      if g.contains u_id then (scanRow g u_id).filter (fun a => decide (a.id ≠ u_id)) else [] := by
  unfold get_neighbours
  split
  · rw [eraseSelf_eq_filter _ _ (scanRow_nodup g u_id)]
  · rfl

theorem cell_pos_lt (m : List (List Int)) (i j : Nat) (h : 0 < cell m i j) :
    j < (m.getD i []).length := by
  by_contra hc
  rw [cell_of_row_short m i j (by omega)] at h
  exact lt_irrefl _ h

theorem mem_get_neighbours_ids (g : directed_graph) (u_id v : Nat) :
    v ∈ (g.get_neighbours u_id).map vertex.id ↔
      g.contains u_id = true ∧ v ≠ u_id ∧ 0 < cell g.adj_matrix u_id v := by
  rw [get_neighbours_eq]
  split
  · rename_i hc
    rw [scanRow_eq]
    simp only [List.filter_map, List.map_map, List.mem_map, List.mem_filter, List.mem_range,
      Function.comp, decide_eq_true_eq, hc, true_and]
    constructor
    · rintro ⟨i, ⟨⟨_, h2⟩, h3⟩, rfl⟩
      exact ⟨h3, h2⟩
    · rintro ⟨h1, h2⟩
      exact ⟨v, ⟨⟨cell_pos_lt _ _ _ h2, h2⟩, h1⟩, rfl⟩
  · rename_i hc
    simp [hc]


theorem forRange_induct {σ : Type} (P : Nat → σ → Prop) (lo hi : Nat) (body : Nat → σ → σ)
    (s : σ) (hle : lo ≤ hi) (hs : P lo s)
    (hstep : ∀ i t, lo ≤ i → i < hi → P i t → P (i + 1) (body i t)) :
    P hi (forRange lo hi body s) := by
  have key : ∀ k, ∀ lo s, lo ≤ hi → hi - lo = k → P lo s →
      (∀ i t, lo ≤ i → i < hi → P i t → P (i + 1) (body i t)) →
      P hi (forRange lo hi body s) := by
    intro k
    induction k with
    | zero =>
      intro lo s hle hk hs _
      rw [forRange_nil _ _ _ _ (by omega)]
      have : lo = hi := by omega
      rw [← this]; exact hs
    | succ k ih =>
      intro lo s hle hk hs hstep
      rw [forRange_succ_left _ _ _ _ (by omega)]
      exact ih (lo + 1) _ (by omega) (by omega) (hstep lo s (le_refl _) (by omega) hs)
        (fun i t h1 h2 => hstep i t (by omega) h2)
  exact key _ lo s hle rfl hs hstep

theorem foldl_induct {α β : Type} (P : List β → α → Prop) (f : α → β → α) (l : List β)
    (init : α) (h0 : P [] init)
    (hstep : ∀ pre x acc, P pre acc → P (pre ++ [x]) (f acc x)) :
    P l (l.foldl f init) := by
  have key : ∀ (suf pre : List β) (acc : α), P pre acc → P (pre ++ suf) (suf.foldl f acc) := by
    intro suf
    induction suf with
    | nil => intro pre acc h; simpa using h
    | cons x t ih =>
      intro pre acc h
      have := ih (pre ++ [x]) (f acc x) (hstep pre x acc h)
      simpa using this
  simpa using key l [] init h0

/-- The ids `get_second_order_neighbours` returns: the ids other than `u_id` that
have a positive cell in the row of some first-order neighbour. -/
theorem mem_get_second_order_neighbours_ids (g : directed_graph) (u_id j : Nat) :
    j ∈ (g.get_second_order_neighbours u_id).map vertex.id ↔
      j ≠ u_id ∧ ∃ x ∈ g.get_neighbours u_id, 0 < cell g.adj_matrix x.id j := by
  unfold get_second_order_neighbours
  simp only
  have h := foldl_induct
    (fun (pre : List vertex) (so : List vertex) =>
      ∀ j, j ∈ so.map vertex.id ↔ j ≠ u_id ∧ ∃ x ∈ pre, 0 < cell g.adj_matrix x.id j)
    (fun second_orders (x : vertex) =>
      forRange 0 (g.adj_matrix.getD x.id []).length
        (fun i second_orders =>
          if 0 < cell g.adj_matrix x.id i then
            if i ≠ u_id then
              let is_duplicate := second_orders.any (fun v => v.id == i)
              if !is_duplicate then second_orders ++ [⟨i, g.vertex_weights.getD i 0⟩]
              else second_orders
            else second_orders
          else second_orders) second_orders)
    (g.get_neighbours u_id) [] (by simp) (by
      intro pre x acc hacc
      have h2 := forRange_induct
        (fun (k : Nat) (so : List vertex) =>
          ∀ j, j ∈ so.map vertex.id ↔
            (j ∈ acc.map vertex.id ∨ (j < k ∧ 0 < cell g.adj_matrix x.id j ∧ j ≠ u_id)))
        0 (g.adj_matrix.getD x.id []).length
        (fun i second_orders =>
          if 0 < cell g.adj_matrix x.id i then
            if i ≠ u_id then
              let is_duplicate := second_orders.any (fun v => v.id == i)
              if !is_duplicate then second_orders ++ [⟨i, g.vertex_weights.getD i 0⟩]
              else second_orders
            else second_orders
          else second_orders) acc (Nat.zero_le _) (by simp) (by
          intro k so _ _ hso j
          simp only
          by_cases hc : 0 < cell g.adj_matrix x.id k
          · by_cases hk : k ≠ u_id
            · by_cases hd : so.any (fun v => v.id == k) = true
              · simp only [if_pos hc, if_pos hk, hd, Bool.not_true, Bool.false_eq_true, if_false]
                have hkin : k ∈ so.map vertex.id := by
                  rw [List.any_eq_true] at hd
                  obtain ⟨v, hv, hvk⟩ := hd
                  rw [List.mem_map]
                  exact ⟨v, hv, by simpa using hvk⟩
                rw [hso j]
                constructor
                · rintro (h | ⟨h1, h2, h3⟩)
                  · exact Or.inl h
                  · exact Or.inr ⟨by omega, h2, h3⟩
                · rintro (h | ⟨h1, h2, h3⟩)
                  · exact Or.inl h
                  · by_cases hjk : j = k
                    · subst hjk; exact (hso j).mp hkin
                    · exact Or.inr ⟨by omega, h2, h3⟩
              · have hd' : so.any (fun v => v.id == k) = false := by simpa using hd
                simp only [if_pos hc, if_pos hk, hd', Bool.not_false, if_true,
                  List.map_append, List.map_cons, List.map_nil, List.mem_append,
                  List.mem_singleton]
                rw [hso j]
                constructor
                · rintro ((h | ⟨h1, h2, h3⟩) | h)
                  · exact Or.inl h
                  · exact Or.inr ⟨by omega, h2, h3⟩
                  · subst h; exact Or.inr ⟨by omega, hc, hk⟩
                · rintro (h | ⟨h1, h2, h3⟩)
                  · exact Or.inl (Or.inl h)
                  · by_cases hjk : j = k
                    · exact Or.inr hjk
                    · exact Or.inl (Or.inr ⟨by omega, h2, h3⟩)
            · rw [if_pos hc, if_neg hk]
              rw [hso j]
              have hk' : k = u_id := by simpa using hk
              constructor
              · rintro (h | ⟨h1, h2, h3⟩)
                · exact Or.inl h
                · exact Or.inr ⟨by omega, h2, h3⟩
              · rintro (h | ⟨h1, h2, h3⟩)
                · exact Or.inl h
                · exact Or.inr ⟨by omega, h2, h3⟩
          · rw [if_neg hc]
            rw [hso j]
            constructor
            · rintro (h | ⟨h1, h2, h3⟩)
              · exact Or.inl h
              · exact Or.inr ⟨by omega, h2, h3⟩
            · rintro (h | ⟨h1, h2, h3⟩)
              · exact Or.inl h
              · have : j ≠ k := by rintro rfl; exact hc h2
                exact Or.inr ⟨by omega, h2, h3⟩)
      intro j
      simp only at h2
      rw [h2 j, hacc j]
      constructor
      · rintro (⟨h1, y, hy, hy2⟩ | ⟨_, h2, h3⟩)
        · exact ⟨h1, y, List.mem_append_left _ hy, hy2⟩
        · exact ⟨h3, x, by simp, h2⟩
      · rintro ⟨h1, y, hy, hy2⟩
        rw [List.mem_append, List.mem_singleton] at hy
        rcases hy with hy | rfl
        · exact Or.inl ⟨h1, y, hy, hy2⟩
        · exact Or.inr ⟨cell_pos_lt _ _ _ hy2, hy2, h1⟩)
  exact h j


theorem num_vertices_eq (g : directed_graph) :
    g.num_vertices =
      ((List.range g.vertex_weights.length).filter (fun i => g.contains i)).length := by
  unfold num_vertices
  rw [forRange_count (fun i => 0 < g.vertex_weights.getD i 0)]
  rfl

/-- Claim C1 (defect of the code). After `add_vertex(0, 10)`, `add_vertex(1, 20)` and
`add_edge(0, 1, 1)` called twice, `num_edges()` is 2 while `adjacent` holds for one
pair of ids; and `remove_edge(0, 0)` on a graph without that edge leaves the counter
at -1, which `num_edges()` returns as 2^64 - 1. -/
theorem num_edges_counts_calls_not_edges :
    num_edges edge_added_twice = 2 ∧ adjacentPairs edge_added_twice = 1 ∧
    num_edges (remove_edge (add_vertex init ⟨0, 10⟩) 0 0) = 2 ^ 64 - 1 := by
  unfold edge_added_twice
  rw [init_eq]
  decide!

/-- Claim C2 (defect of the code). With the edge 0 -> 1 present, `remove_vertex(1)`
leaves the cell of the edge at its weight 5 and `num_edges()` at 1, and once vertex 1
is added again `adjacent(0, 1)` is true. -/
theorem remove_vertex_keeps_incident_edges :
    adjacent edge_0_1 0 1 = true ∧ num_edges edge_0_1 = 1 ∧
    cell (remove_vertex edge_0_1 1).adj_matrix 0 1 = 5 ∧
    num_edges (remove_vertex edge_0_1 1) = 1 ∧
    adjacent (add_vertex (remove_vertex edge_0_1 1) ⟨1, 20⟩) 0 1 = true := by
  unfold edge_0_1
  rw [init_eq]
  decide!

theorem edge_0_1_WF : WF edge_0_1 := by
  unfold edge_0_1
  rw [init_eq]
  decide!

/-- Claim C3 at the graph with the edge 0 -> 1 and the vertex (150, 40): the capacity
was 100, the loop of `add_vertex` grows it, and the content below 100 is kept. -/
theorem add_vertex_growth_preserves_content_witness :
    WF edge_0_1 ∧ edge_0_1.vertex_weights.length ≤ 150 ∧
    WF (add_vertex edge_0_1 ⟨150, 40⟩) ∧
    150 < (add_vertex edge_0_1 ⟨150, 40⟩).vertex_weights.length ∧
    (∀ i j, i < edge_0_1.vertex_weights.length → j < edge_0_1.vertex_weights.length →
      (add_vertex edge_0_1 ⟨150, 40⟩).adjacent i j = edge_0_1.adjacent i j) ∧
    (add_vertex edge_0_1 ⟨150, 40⟩).vertex_weights.getD 150 0 = 40 :=
  have h1 : WF edge_0_1 := edge_0_1_WF
  have h2 : edge_0_1.vertex_weights.length ≤ 150 := by
    unfold edge_0_1
    rw [init_eq]
    decide!
  have h := add_vertex_growth_preserves_content edge_0_1 ⟨150, 40⟩ h1 h2
  ⟨h1, h2, h.1, h.2.1, h.2.2.2.2.2.1, h.2.2.2.2.2.2.1⟩

/-- Claim C4 (defect of the code). With the single vertex 5, `depth_first(5)` indexes
`visited`, an array of `num_vertices() = 1` entries, at 5.  With vertices 0, 1, 2, the
edge 0 -> 1 and vertex 1 removed, `depth_first(0)` returns 0 and then the id 1, which
is no vertex of the graph and is not adjacent to 0. -/
theorem depth_first_sparse_ids_and_removed_vertices :
    contains sparse_id 5 = true ∧ num_vertices sparse_id = 1 ∧
    depth_first sparse_id 5 = traversal.out_of_range ∧
    contains removed_target 1 = false ∧ adjacent removed_target 0 1 = false ∧
    depth_first removed_target 0 = traversal.ordered [⟨0, 10⟩, ⟨1, 0⟩] := by
  unfold sparse_id removed_target
  rw [init_eq]
  decide!

/-- Claim C5 (defect of the code). With the edge 0 -> 1 present and vertex 1 removed,
`get_neighbours(0)` returns the id 1 with the weight 0, although vertex 1 does not
exist and `adjacent(0, 1)` is false. -/
theorem get_neighbours_returns_removed_vertex :
    get_neighbours (remove_vertex edge_0_1 1) 0 = [⟨1, 0⟩] ∧
    contains (remove_vertex edge_0_1 1) 1 = false ∧
    adjacent (remove_vertex edge_0_1 1) 0 1 = false := by
  unfold edge_0_1
  rw [init_eq]
  decide!

/-- Claim C6. The list `get_neighbours(u)` holds no vertex of id `u`, also after
`add_edge(u, u, w)`; it is the list of the positive cells of the row of `u` with the
entry of `u` itself taken out and every other entry kept, in the same order. -/
theorem get_neighbours_excludes_self (g : directed_graph) (u : Nat) :
    (∀ a ∈ g.get_neighbours u, a.id ≠ u) ∧
    (∀ w, ∀ a ∈ (g.add_edge u u w).get_neighbours u, a.id ≠ u) ∧
    g.get_neighbours u =
      (if g.contains u then (scanRow g u).filter (fun a => decide (a.id ≠ u)) else []) := by
  have key : ∀ g : directed_graph, ∀ a ∈ g.get_neighbours u, a.id ≠ u := by
    intro g a ha
    rw [get_neighbours_eq] at ha
    split at ha
    · simpa using (List.mem_filter.mp ha).2
    · simp at ha
  exact ⟨key g, fun w => key _, get_neighbours_eq g u⟩

/-- Claim C7, the claim as stated fails. With the edge 0 -> 1 and a self-loop at 1,
`get_second_order_neighbours(0)` returns the id 1, while the neighbour lists of the
neighbours of 0 hold no id at all. -/
theorem second_order_neighbours_self_loop_counterexample :
    (get_second_order_neighbours self_loop_neighbour 0).map vertex.id = [1] ∧
    (((get_neighbours self_loop_neighbour 0).flatMap
      (fun n => (get_neighbours self_loop_neighbour n.id).map vertex.id)).filter
        (fun j => decide (j ≠ 0))) = [] := by
  unfold self_loop_neighbour
  rw [init_eq]
  decide!

/-- Claim C7, amended. When every first-order neighbour of `u` exists, an id is
returned by `get_second_order_neighbours(u)` exactly when it differs from `u` and,
for some `n` of `get_neighbours(u)`, it is in `get_neighbours(n)` or it is `n` itself
and `n` has a self-loop. -/
theorem second_order_neighbours_union (g : directed_graph) (u j : Nat)
    (h : ∀ n ∈ g.get_neighbours u, g.contains n.id = true) :
    j ∈ (g.get_second_order_neighbours u).map vertex.id ↔
      j ≠ u ∧ ∃ n ∈ g.get_neighbours u,
        (j ∈ (g.get_neighbours n.id).map vertex.id ∨
          (j = n.id ∧ 0 < cell g.adj_matrix n.id n.id)) := by
  rw [mem_get_second_order_neighbours_ids]
  constructor
  · rintro ⟨h1, n, hn, hc⟩
    refine ⟨h1, n, hn, ?_⟩
    by_cases hjn : j = n.id
    · exact Or.inr ⟨hjn, by rw [hjn] at hc; exact hc⟩
    · exact Or.inl ((mem_get_neighbours_ids g n.id j).mpr ⟨h n hn, hjn, hc⟩)
  · rintro ⟨h1, n, hn, hc⟩
    refine ⟨h1, n, hn, ?_⟩
    rcases hc with hc | ⟨hjn, hc⟩
    · exact ((mem_get_neighbours_ids g n.id j).mp hc).2.2
    · rw [hjn]; exact hc

/-- Claim C7, amended, at the graph with the edge 0 -> 1 and a self-loop at 1: the
neighbour 1 of 0 exists, and the id 1 is a second-order neighbour of 0 through the
self-loop. -/
theorem second_order_neighbours_union_witness :
    (∀ n ∈ get_neighbours self_loop_neighbour 0, contains self_loop_neighbour n.id = true) ∧
    (1 ∈ (get_second_order_neighbours self_loop_neighbour 0).map vertex.id ↔
      1 ≠ 0 ∧ ∃ n ∈ get_neighbours self_loop_neighbour 0,
        (1 ∈ (get_neighbours self_loop_neighbour n.id).map vertex.id ∨
          (1 = n.id ∧ 0 < cell self_loop_neighbour.adj_matrix n.id n.id))) :=
  have h : ∀ n ∈ get_neighbours self_loop_neighbour 0,
      contains self_loop_neighbour n.id = true := by
    unfold self_loop_neighbour
    rw [init_eq]
    decide!
  ⟨h, second_order_neighbours_union self_loop_neighbour 0 1 h⟩

/-- Claim C8 (defect of the code). With the edge 0 -> 1 present and vertex 1 removed,
`out_degree(0)` and `degree(0)` are 1 although `adjacent(0, v)` is true for no `v`;
with vertex 0 removed instead, `in_degree(1)` is 1 although `adjacent(v, 1)` is true
for no `v`. -/
theorem degree_counts_edges_of_removed_vertices :
    out_degree (remove_vertex edge_0_1 1) 0 = 1 ∧
    degree (remove_vertex edge_0_1 1) 0 = 1 ∧
    ((List.range 100).filter (fun v => adjacent (remove_vertex edge_0_1 1) 0 v)).length = 0 ∧
    in_degree (remove_vertex edge_0_1 0) 1 = 1 ∧
    ((List.range 100).filter (fun v => adjacent (remove_vertex edge_0_1 0) v 1)).length = 0 := by
  unfold edge_0_1
  rw [init_eq]
  decide!

/-- Claim C9, the claim as stated fails. After `add_vertex(0, -5)` the stored
weight of 0 is -5, which is not the sentinel 0, and yet `contains(0)` is false and
`num_vertices()` is 0. -/
theorem contains_negative_weight_counterexample :
    (add_vertex init ⟨0, -5⟩).vertex_weights.getD 0 0 = -5 ∧
    contains (add_vertex init ⟨0, -5⟩) 0 = false ∧
    num_vertices (add_vertex init ⟨0, -5⟩) = 0 := by
  rw [init_eq]
  decide!

/-- Claim C9, amended. `contains(i)` is true exactly when the stored weight of `i`
is positive; after `add_vertex(u)` with a positive weight `contains(u.id)` is true,
and `num_vertices()` is the number of ids below the capacity for which `contains`
holds, `u.id` among them. -/
theorem contains_iff_weight_pos (g : directed_graph) (u : vertex) (hwf : WF g)
    (hw : 0 < u.weight) :
    (∀ i, g.contains i = true ↔ 0 < g.vertex_weights.getD i 0) ∧
    (add_vertex g u).contains u.id = true ∧
    (add_vertex g u).num_vertices =
      ((List.range (add_vertex g u).vertex_weights.length).filter
        (fun i => (add_vertex g u).contains i)).length ∧
    u.id ∈ (List.range (add_vertex g u).vertex_weights.length).filter
        (fun i => (add_vertex g u).contains i) := by
  have hex := growLoop_exits (u.id + 1) g u.id hwf (by omega)
  have hc : (add_vertex g u).contains u.id = true := by
    unfold contains add_vertex
    simp only
    rw [getD_set_self _ _ _ _ hex]
    exact decide_eq_true hw
  refine ⟨fun i => by unfold contains; exact decide_eq_true_iff, hc, num_vertices_eq _, ?_⟩
  rw [List.mem_filter, List.mem_range]
  exact ⟨by simpa [add_vertex] using hex, hc⟩

theorem init_WF : WF init := by
  rw [init_eq]
  decide!

/-- Claim C9, amended, at the empty graph and the vertex (3, 7). -/
theorem contains_iff_weight_pos_witness :
    WF init ∧ (0 : Int) < 7 ∧ (add_vertex init ⟨3, 7⟩).contains 3 = true ∧
    3 ∈ (List.range (add_vertex init ⟨3, 7⟩).vertex_weights.length).filter
        (fun i => (add_vertex init ⟨3, 7⟩).contains i) :=
  have h := contains_iff_weight_pos init ⟨3, 7⟩ init_WF (by decide)
  ⟨init_WF, by decide, h.2.1, h.2.2.2⟩

/-- Claim C10. When `u` or `v` is not an existing vertex, `add_edge(u, v, w)` and
`remove_edge(u, v)` return the graph they were given: the same weights, the same
matrix and the same edge counter. -/
theorem edge_mutation_missing_endpoint_noop (g : directed_graph) (u v : Nat) (w : Int)
    (h : g.contains u = false ∨ g.contains v = false) :
    g.add_edge u v w = g ∧ g.remove_edge u v = g := by
  have hc : (g.contains u && g.contains v) = false := by
    rcases h with h | h <;> simp [h]
  unfold add_edge remove_edge
  simp [hc]

/-- Claim C10 at the graph with the single vertex 0: vertex 1 does not exist, and
`add_edge(0, 1, 7)` and `remove_edge(0, 1)` change nothing. -/
theorem edge_mutation_missing_endpoint_noop_witness :
    contains (add_vertex init ⟨0, 10⟩) 1 = false ∧
    add_edge (add_vertex init ⟨0, 10⟩) 0 1 7 = add_vertex init ⟨0, 10⟩ ∧
    remove_edge (add_vertex init ⟨0, 10⟩) 0 1 = add_vertex init ⟨0, 10⟩ :=
  have h : contains (add_vertex init ⟨0, 10⟩) 1 = false := by
    rw [init_eq]
    decide!
  ⟨h, edge_mutation_missing_endpoint_noop (add_vertex init ⟨0, 10⟩) 0 1 7 (Or.inr h)⟩

/-- Claim C11 (defect of the code). In the graph with the single vertex 0 of weight
10 no id holds the weight 7, and `get_index(7)` returns 0, the id of the existing
vertex 0, which is also what `get_index(10)` returns. -/
theorem get_index_miss_returns_valid_id :
    (∀ i, i < (add_vertex init ⟨0, 10⟩).vertex_weights.length →
      (add_vertex init ⟨0, 10⟩).vertex_weights.getD i 0 ≠ 7) ∧
    get_index (add_vertex init ⟨0, 10⟩) 7 = 0 ∧
    contains (add_vertex init ⟨0, 10⟩) 0 = true ∧
    get_index (add_vertex init ⟨0, 10⟩) 10 = 0 := by
  rw [init_eq]
  decide!

/-- Claim C12 (defect of the code). In the example graph the edge 0 -> 2 exists and
`depth_first(0)` visits vertex 2, but `reachable(0, 2)` is false. -/
theorem reachable_stub_misses_edge :
    adjacent example_graph 0 2 = true ∧
    depth_first example_graph 0 = traversal.ordered [⟨0, 10⟩, ⟨2, 30⟩, ⟨1, 20⟩] ∧
    reachable example_graph 0 2 = false := by
  unfold example_graph three_vertices
  rw [init_eq]
  decide!

/-- Claim C13 (defect of the code). With the edges 0 -> 1, 1 -> 2 and 2 -> 0 the
vertices lie on a cycle, but `contain_cycles()` is false. -/
theorem contain_cycles_stub_misses_cycle :
    adjacent cycle_graph 0 1 = true ∧ adjacent cycle_graph 1 2 = true ∧
    adjacent cycle_graph 2 0 = true ∧ contain_cycles cycle_graph = false := by
  unfold cycle_graph example_graph three_vertices
  rw [init_eq]
  decide!

/-- Claim C14 (defect of the code). Vertex 0 of the example graph exists, but
`breadth_first(0)` is the empty sequence: it does not start with 0. -/
theorem breadth_first_stub_returns_nothing :
    contains example_graph 0 = true ∧ breadth_first example_graph 0 = [] := by
  unfold example_graph three_vertices
  rw [init_eq]
  decide!

theorem contains_lt (g : directed_graph) (i : Nat) (h : g.contains i = true) :
    i < g.vertex_weights.length := by
  by_contra hc
  unfold contains at h
  rw [List.getD_eq_default _ _ (by omega)] at h
  simp at h

/-- Claim C15. On a square graph of positive capacity, `add_vertex(u)` stores the
weight of `u` at `u.id`, whether or not the id held a vertex, keeps the weight of
every other id below the old capacity and every cell below the old capacity, and
leaves `num_edges()` as it was. -/
theorem add_vertex_stores_and_keeps_the_rest (g : directed_graph) (u : vertex) (hwf : WF g) :
    (add_vertex g u).vertex_weights.getD u.id 0 = u.weight ∧
    (∀ i, i < g.vertex_weights.length → i ≠ u.id →
      (add_vertex g u).vertex_weights.getD i 0 = g.vertex_weights.getD i 0) ∧
    (∀ i j, i < g.vertex_weights.length → j < g.vertex_weights.length →
      cell (add_vertex g u).adj_matrix i j = cell g.adj_matrix i j) ∧
    num_edges (add_vertex g u) = num_edges g := by
  obtain ⟨_, _, hw, hc, he⟩ := growLoop_spec (u.id + 1) g u.id hwf
  have hex := growLoop_exits (u.id + 1) g u.id hwf (by omega)
  refine ⟨?_, ?_, fun i j _ _ => hc i j, ?_⟩
  · unfold add_vertex
    exact getD_set_self _ _ _ _ hex
  · intro i _ hne
    unfold add_vertex
    simp only
    rw [getD_set_ne _ _ _ _ _ (Ne.symm hne), hw i]
  · unfold num_edges
    have : (add_vertex g u).edgeCount = g.edgeCount := he
    rw [this]

/-- Claim C15 at the graph with the edge 0 -> 1, where `add_vertex` overwrites the
weight 20 of the existing vertex 1 by 99. -/
theorem add_vertex_stores_and_keeps_the_rest_witness :
    WF edge_0_1 ∧ contains edge_0_1 1 = true ∧
    (add_vertex edge_0_1 ⟨1, 99⟩).vertex_weights.getD 1 0 = 99 ∧
    num_edges (add_vertex edge_0_1 ⟨1, 99⟩) = num_edges edge_0_1 :=
  have h := add_vertex_stores_and_keeps_the_rest edge_0_1 ⟨1, 99⟩ edge_0_1_WF
  have hc : contains edge_0_1 1 = true := by
    unfold edge_0_1
    rw [init_eq]
    decide!
  ⟨edge_0_1_WF, hc, h.1, h.2.2.2⟩

theorem setCell_setCell (m : List (List Int)) (i j : Nat) (x y : Int) :
    setCell (setCell m i j x) i j y = setCell m i j y := by
  unfold setCell
  by_cases hi : i < m.length
  · rw [getD_set_self _ _ _ _ hi, List.set_set, List.set_set]
  · have e : ∀ r : List Int, m.set i r = m := fun r => List.set_eq_of_length_le (by omega)
    simp only [e]

/-- Claim C20. For existing vertices `u` and `v` whose cell is 0, `add_edge(u, v, w)`
followed by `remove_edge(u, v)` gives back the graph: the same weights, the same
matrix and the same edge counter. -/
theorem add_edge_remove_edge_round_trip (g : directed_graph) (u v : Nat) (w : Int)
    (hu : g.contains u = true) (hv : g.contains v = true)
    (hc : cell g.adj_matrix u v = 0) :
    remove_edge (add_edge g u v w) u v = g := by
  have h1 : add_edge g u v w =
      { g with adj_matrix := setCell g.adj_matrix u v w, edgeCount := g.edgeCount + 1 } := by
    unfold add_edge
    simp [hu, hv]
  rw [h1]
  unfold remove_edge contains
  unfold contains at hu hv
  simp only [hu, hv, Bool.and_self, if_true]
  rw [setCell_setCell, setCell_eq_self _ _ _ _ hc]
  cases g
  simp

theorem three_vertices_WF : WF three_vertices := by
  unfold three_vertices
  rw [init_eq]
  decide!

/-- Claim C20 at the graph with the vertices 0, 1, 2 and no edge, for the edge
0 -> 1 of weight 5. -/
theorem add_edge_remove_edge_round_trip_witness :
    contains three_vertices 0 = true ∧ contains three_vertices 1 = true ∧
    cell three_vertices.adj_matrix 0 1 = 0 ∧
    remove_edge (add_edge three_vertices 0 1 5) 0 1 = three_vertices :=
  have h : contains three_vertices 0 = true ∧ contains three_vertices 1 = true ∧
      cell three_vertices.adj_matrix 0 1 = 0 := by
    unfold three_vertices
    rw [init_eq]
    decide!
  ⟨h.1, h.2.1, h.2.2, add_edge_remove_edge_round_trip three_vertices 0 1 5 h.1 h.2.1 h.2.2⟩

theorem setCell_length (m : List (List Int)) (i j : Nat) (x : Int) :
    (setCell m i j x).length = m.length := by
  simp [setCell]

theorem setCell_row_length (m : List (List Int)) (i j : Nat) (x : Int) (n : Nat)
    (h : ∀ row ∈ m, row.length = n) : ∀ row ∈ setCell m i j x, row.length = n := by
  intro row hrow
  unfold setCell at hrow
  by_cases hi : i < m.length
  · rcases List.mem_or_eq_of_mem_set hrow with hm | rfl
    · exact h row hm
    · rw [List.length_set, List.getD_eq_getElem _ _ hi]
      exact h _ (List.getElem_mem _)
  · rw [List.set_eq_of_length_le (by omega)] at hrow
    exact h row hrow

theorem add_edge_WF (g : directed_graph) (u v : Nat) (w : Int) (h : WF g) :
    WF (add_edge g u v w) := by
  unfold add_edge
  split
  · obtain ⟨h1, h2, h3⟩ := h
    exact ⟨h1, by simpa [setCell_length] using h2, setCell_row_length _ _ _ _ _ h3⟩
  · exact h

theorem remove_edge_WF (g : directed_graph) (u v : Nat) (h : WF g) :
    WF (remove_edge g u v) := by
  unfold remove_edge
  split
  · obtain ⟨h1, h2, h3⟩ := h
    exact ⟨h1, by simpa [setCell_length] using h2, setCell_row_length _ _ _ _ _ h3⟩
  · exact h

theorem remove_vertex_WF (g : directed_graph) (u : Nat) (h : WF g) :
    WF (remove_vertex g u) := by
  obtain ⟨h1, h2, h3⟩ := h
  exact ⟨by simpa [remove_vertex] using h1, by simpa [remove_vertex] using h2,
    by simpa [remove_vertex] using h3⟩

theorem add_edge_length (g : directed_graph) (u v : Nat) (w : Int) :
    (add_edge g u v w).vertex_weights.length = g.vertex_weights.length := by
  unfold add_edge
  split <;> rfl

theorem remove_edge_length (g : directed_graph) (u v : Nat) :
    (remove_edge g u v).vertex_weights.length = g.vertex_weights.length := by
  unfold remove_edge
  split <;> rfl

theorem remove_vertex_length (g : directed_graph) (u : Nat) :
    (remove_vertex g u).vertex_weights.length = g.vertex_weights.length := by
  simp [remove_vertex]

/-- The loop of `add_vertex` doubles the capacity some number of times. -/
theorem growLoop_length (fuel : Nat) : ∀ (g : directed_graph) (id : Nat), WF g →
    ∃ j, (growLoop fuel g id).vertex_weights.length = g.vertex_weights.length * 2 ^ j := by
  induction fuel with
  | zero => intro g id _; exact ⟨0, by simp [growLoop]⟩
  | succ fuel ih =>
    intro g id h
    unfold growLoop
    split
    · rw [increaseCapacity_eq g h]
      obtain ⟨j, hj⟩ := ih (grown g) id (grown_WF g h)
      refine ⟨j + 1, ?_⟩
      rw [hj, grown_length, pow_succ]
      ring
    · exact ⟨0, by simp⟩

theorem add_vertex_length (g : directed_graph) (u : vertex) (h : WF g) :
    ∃ j, (add_vertex g u).vertex_weights.length = g.vertex_weights.length * 2 ^ j := by
  obtain ⟨j, hj⟩ := growLoop_length (u.id + 1) g u.id h
  exact ⟨j, by simpa [add_vertex] using hj⟩

/-- Every graph built from the constructor is square, and its capacity is 100
doubled some number of times. -/
theorem Reachable.square (g : directed_graph) (h : Reachable g) :
    WF g ∧ ∃ k, g.vertex_weights.length = 100 * 2 ^ k := by
  induction h with
  | init => exact ⟨init_WF, 0, by rw [init_eq]; simp⟩
  | add_vertex g u _ ih =>
    obtain ⟨hwf, k, hk⟩ := ih
    obtain ⟨j, hj⟩ := add_vertex_length g u hwf
    exact ⟨add_vertex_WF g u hwf, k + j, by rw [hj, hk, pow_add]; ring⟩
  | add_edge g u v w _ ih =>
    exact ⟨add_edge_WF g u v w ih.1, by rw [add_edge_length]; exact ih.2⟩
  | remove_vertex g u _ ih =>
    exact ⟨remove_vertex_WF g u ih.1, by rw [remove_vertex_length]; exact ih.2⟩
  | remove_edge g u v _ ih =>
    exact ⟨remove_edge_WF g u v ih.1, by rw [remove_edge_length]; exact ih.2⟩
  | increaseCapacity g _ ih =>
    obtain ⟨hwf, k, hk⟩ := ih
    rw [increaseCapacity_eq g hwf]
    exact ⟨grown_WF g hwf, k + 1, by rw [grown_length, hk, pow_succ]; ring⟩

/-- Claim C16. In every graph built from the constructor by `add_vertex`, `add_edge`,
`remove_vertex`, `remove_edge` and `increaseCapacity`, the length of
`vertex_weights` is 100 * 2^k for some k, the matrix has that many rows, every row
has that length, and none of the five methods makes the capacity smaller. -/
theorem capacity_invariant (g : directed_graph) (h : Reachable g) :
    (∃ k, g.vertex_weights.length = 100 * 2 ^ k) ∧
    g.adj_matrix.length = g.vertex_weights.length ∧
    (∀ row ∈ g.adj_matrix, row.length = g.vertex_weights.length) ∧
    (∀ u, g.vertex_weights.length ≤ (add_vertex g u).vertex_weights.length) ∧
    (∀ u v w, g.vertex_weights.length ≤ (add_edge g u v w).vertex_weights.length) ∧
    (∀ u, g.vertex_weights.length ≤ (remove_vertex g u).vertex_weights.length) ∧
    (∀ u v, g.vertex_weights.length ≤ (remove_edge g u v).vertex_weights.length) ∧
    g.vertex_weights.length ≤ (increaseCapacity g).vertex_weights.length := by
  obtain ⟨hwf, hk⟩ := Reachable.square g h
  refine ⟨hk, hwf.2.1, hwf.2.2, ?_, ?_, ?_, ?_, ?_⟩
  · intro u
    obtain ⟨j, hj⟩ := add_vertex_length g u hwf
    rw [hj]
    exact Nat.le_mul_of_pos_right _ (by positivity)
  · intro u v w; rw [add_edge_length]
  · intro u; rw [remove_vertex_length]
  · intro u v; rw [remove_edge_length]
  · rw [increaseCapacity_eq g hwf, grown_length]; omega

/-- Claim C16 at the graph built by `add_vertex(0, 10)`, `add_vertex(250, 40)` and
`add_edge(0, 250, 1)`. -/
theorem capacity_invariant_witness :
    Reachable (add_edge (add_vertex (add_vertex init ⟨0, 10⟩) ⟨250, 40⟩) 0 250 1) ∧
    (∃ k, (add_edge (add_vertex (add_vertex init ⟨0, 10⟩) ⟨250, 40⟩) 0 250 1).vertex_weights.length
      = 100 * 2 ^ k) ∧
    (add_edge (add_vertex (add_vertex init ⟨0, 10⟩) ⟨250, 40⟩) 0 250 1).adj_matrix.length =
      (add_edge (add_vertex (add_vertex init ⟨0, 10⟩) ⟨250, 40⟩) 0 250 1).vertex_weights.length :=
  have hr : Reachable (add_edge (add_vertex (add_vertex init ⟨0, 10⟩) ⟨250, 40⟩) 0 250 1) :=
    Reachable.add_edge _ 0 250 1
      (Reachable.add_vertex _ ⟨250, 40⟩ (Reachable.add_vertex _ ⟨0, 10⟩ Reachable.init))
  have h := capacity_invariant _ hr
  ⟨hr, h.1, h.2.1⟩

/-- Claim C18. The list `get_second_order_neighbours(u)` returns holds no id twice
and does not hold `u`. -/
theorem second_order_neighbours_nodup_without_start (g : directed_graph) (u : Nat) :
    ((g.get_second_order_neighbours u).map vertex.id).Nodup ∧
    u ∉ (g.get_second_order_neighbours u).map vertex.id := by
  refine ⟨?_, fun hu => ((mem_get_second_order_neighbours_ids g u u).mp hu).1 rfl⟩
  unfold get_second_order_neighbours
  simp only
  apply foldl_induct (fun (_ : List vertex) (so : List vertex) => (so.map vertex.id).Nodup)
  · simp
  · intro _ x acc hacc
    apply forRange_invariant (fun (so : List vertex) => (so.map vertex.id).Nodup)
    · exact hacc
    · intro k so _ _ hso
      by_cases hc : 0 < cell g.adj_matrix x.id k
      · by_cases hk : k ≠ u
        · by_cases hd : so.any (fun v => v.id == k) = true
          · simp only [if_pos hc, if_pos hk, hd, Bool.not_true, Bool.false_eq_true, if_false]
            exact hso
          · have hd2 : so.any (fun v => v.id == k) = false := by simpa using hd
            simp only [if_pos hc, if_pos hk, hd2, Bool.not_false, if_true, List.map_append,
              List.map_cons, List.map_nil]
            rw [List.nodup_append]
            refine ⟨hso, List.nodup_singleton _, ?_⟩
            intro a ha hak
            rw [List.mem_singleton] at hak
            subst hak
            rw [List.mem_map] at ha
            obtain ⟨v, hv, hva⟩ := ha
            have := List.any_eq_false.mp hd2 v hv
            simp [hva] at this
        · rw [if_pos hc, if_neg hk]
          exact hso
      · rw [if_neg hc]
        exact hso

theorem dfsWork_set (g : directed_graph) (visited : List Bool) :
    ∀ (k index : Nat), visited[index]? = some false →
      dfsWork g k (visited.set index true) + (g.get_neighbours (k + index)).length
        = dfsWork g k visited := by
  induction visited with
  | nil => intro k index h; simp at h
  | cons b t ih =>
    intro k index h
    cases index with
    | zero =>
      simp at h
      subst h
      simp [dfsWork]
      omega
    | succ i =>
      have h2 : t[i]? = some false := by simpa using h
      have := ih (k + 1) i h2
      have e : k + 1 + i = k + (i + 1) := by omega
      rw [e] at this
      simp only [List.set_cons_succ, dfsWork]
      omega

theorem push_ids_length (l : List vertex) : ∀ st : List Nat,
    (l.foldl (fun st nb => nb.id :: st) st).length = l.length + st.length := by
  induction l with
  | nil => intro st; simp
  | cons a t ih => intro st; simp only [List.foldl_cons, ih, List.length_cons]; omega

/-- The bound on the pops is enough: while the length of the stack and the pops owed
to the unvisited entries fit in the bound, the loop of `depth_first` does not use it
up. -/
theorem dfsLoop_fuel_enough (g : directed_graph) (fuel : Nat) :
    ∀ (visited : List Bool) (stack : List Nat) (ordered : List vertex),
      stack.length + dfsWork g 0 visited ≤ fuel →
      dfsLoop g fuel visited stack ordered ≠ traversal.out_of_fuel := by
  induction fuel with
  | zero =>
    intro visited stack ordered h
    cases stack with
    | nil => simp [dfsLoop]
    | cons a t => simp at h
  | succ fuel ih =>
    intro visited stack ordered h
    cases stack with
    | nil => simp [dfsLoop]
    | cons index rest =>
      unfold dfsLoop
      split
      · simp
      · rename_i hv
        apply ih
        have hw := dfsWork_set g visited 0 index hv
        simp only [Nat.zero_add] at hw
        simp only [List.length_cons] at h
        split
        · rw [push_ids_length]; omega
        · omega
      · apply ih
        simp only [List.length_cons] at h
        omega

theorem forRange_sum_dfsWork (g : directed_graph) (n : Nat) : ∀ (k s : Nat),
    forRange k (k + n) (fun i acc => acc + (g.get_neighbours i).length) s
      = s + dfsWork g k (List.replicate n false) := by
  induction n with
  | zero => intro k s; rw [forRange_nil _ _ _ _ (by omega)]; simp [dfsWork]
  | succ n ih =>
    intro k s
    rw [forRange_succ_left _ _ _ _ (by omega)]
    have e : k + (n + 1) = k + 1 + n := by omega
    rw [e, ih (k + 1)]
    simp [List.replicate_succ, dfsWork]
    omega

theorem dfsFuel_eq (g : directed_graph) :
    g.dfsFuel = 1 + dfsWork g 0 (List.replicate g.num_vertices false) := by
  unfold dfsFuel
  have := forRange_sum_dfsWork g g.num_vertices 0 0
  simp only [Nat.zero_add] at this
  rw [this]

/-- A run of the loop of `depth_first` that does not use up its bound gives the same
result under every larger bound. -/
theorem dfsLoop_more_fuel (g : directed_graph) (fuel : Nat) :
    ∀ (visited : List Bool) (stack : List Nat) (ordered : List vertex) (extra : Nat),
      dfsLoop g fuel visited stack ordered ≠ traversal.out_of_fuel →
      dfsLoop g (fuel + extra) visited stack ordered = dfsLoop g fuel visited stack ordered := by
  induction fuel with
  | zero =>
    intro visited stack ordered extra h
    cases stack with
    | nil => simp [dfsLoop]
    | cons a t => simp [dfsLoop] at h
  | succ fuel ih =>
    intro visited stack ordered extra h
    cases stack with
    | nil => simp [dfsLoop]
    | cons index rest =>
      have e : fuel + 1 + extra = (fuel + extra) + 1 := by omega
      rw [e]
      unfold dfsLoop at h ⊢
      split
      · rename_i hv; simp [hv]
      · rename_i hv
        simp only [hv] at h ⊢
        exact ih _ _ _ _ h
      · rename_i hv
        simp only [hv] at h ⊢
        exact ih _ _ _ _ h

/-- The bound of one pop for the start and one for every entry of a neighbour list of
an index of `visited` is never what stops `depth_first`: the call does not run out
of pops, every larger bound gives the same result, and the result is the empty
sequence when the start id is not an existing vertex.  A run that indexes `visited`
outside its entries is not covered: it ends at `out_of_range`. -/
theorem depth_first_terminates (g : directed_graph) (u : Nat) :
    g.depth_first u ≠ traversal.out_of_fuel ∧
    (∀ extra, dfsLoop g (g.dfsFuel + extra) (List.replicate g.num_vertices false) [u] []
      = dfsLoop g g.dfsFuel (List.replicate g.num_vertices false) [u] []) ∧
    (g.contains u = false → g.depth_first u = traversal.ordered []) := by
  have hfuel : dfsLoop g g.dfsFuel (List.replicate g.num_vertices false) [u] []
      ≠ traversal.out_of_fuel := by
    apply dfsLoop_fuel_enough
    rw [dfsFuel_eq]
    simp
  refine ⟨?_, fun extra => dfsLoop_more_fuel g _ _ _ _ extra hfuel, ?_⟩
  · unfold depth_first
    split
    · exact hfuel
    · simp
  · intro hc
    unfold depth_first
    simp [hc]

theorem mem_push_ids (l : List vertex) (x : Nat) : ∀ st : List Nat,
    x ∈ l.foldl (fun st nb => nb.id :: st) st ↔ x ∈ l.map vertex.id ∨ x ∈ st := by
  induction l with
  | nil => intro st; simp
  | cons a t ih =>
    intro st
    simp only [List.foldl_cons, ih, List.map_cons, List.mem_cons]
    constructor
    · rintro (h | h | h)
      · exact Or.inl (Or.inr h)
      · exact Or.inl (Or.inl h)
      · exact Or.inr h
    · rintro ((h | h) | h)
      · exact Or.inr (Or.inl h)
      · exact Or.inl h
      · exact Or.inr (Or.inr h)

/-- The loop of `depth_first` stays inside `visited` when every id on the stack and
every id of a neighbour list is below the length of `visited`. -/
theorem dfsLoop_in_range (g : directed_graph) (n : Nat)
    (hn : ∀ i, ∀ a ∈ g.get_neighbours i, a.id < n) (fuel : Nat) :
    ∀ (visited : List Bool) (stack : List Nat) (ordered : List vertex),
      visited.length = n → (∀ x ∈ stack, x < n) →
      dfsLoop g fuel visited stack ordered ≠ traversal.out_of_range := by
  induction fuel with
  | zero =>
    intro visited stack ordered _ _
    cases stack <;> simp [dfsLoop]
  | succ fuel ih =>
    intro visited stack ordered hlen hst
    cases stack with
    | nil => simp [dfsLoop]
    | cons index rest =>
      unfold dfsLoop
      split
      · rename_i hv
        have hi : index < visited.length := by
          rw [hlen]; exact hst index (List.mem_cons_self _ _)
        rw [List.getElem?_eq_none_iff] at hv
        omega
      · apply ih
        · rw [List.length_set]; exact hlen
        · intro x hx
          split at hx
          · rw [mem_push_ids] at hx
            rcases hx with hx | hx
            · rw [List.mem_map] at hx
              obtain ⟨a, ha, rfl⟩ := hx
              exact hn index a ha
            · exact hst x (List.mem_cons_of_mem _ hx)
          · exact hst x (List.mem_cons_of_mem _ hx)
      · exact ih _ _ _ hlen (fun x hx => hst x (List.mem_cons_of_mem _ hx))

/-- Claim C19. When every existing vertex id is smaller than `num_vertices()` and
every non-zero cell joins two existing vertices, `depth_first(u)` from an existing
`u` never indexes `visited` outside its `num_vertices()` entries, and it returns a
sequence. -/
theorem depth_first_visited_in_range (g : directed_graph) (u : Nat)
    (hids : ∀ i, g.contains i = true → i < g.num_vertices)
    (hedges : ∀ i j, cell g.adj_matrix i j ≠ 0 → g.contains i = true ∧ g.contains j = true)
    (hu : g.contains u = true) :
    g.depth_first u ≠ traversal.out_of_range ∧ ∃ l, g.depth_first u = traversal.ordered l := by
  have hn : ∀ i, ∀ a ∈ g.get_neighbours i, a.id < g.num_vertices := by
    intro i a ha
    have hm : a.id ∈ (g.get_neighbours i).map vertex.id := List.mem_map_of_mem _ ha
    have hc := ((mem_get_neighbours_ids g i a.id).mp hm).2.2
    exact hids a.id (hedges i a.id (ne_of_gt hc)).2
  have hr : dfsLoop g g.dfsFuel (List.replicate g.num_vertices false) [u] []
      ≠ traversal.out_of_range := by
    apply dfsLoop_in_range g g.num_vertices hn
    · simp
    · intro x hx
      rw [List.mem_singleton] at hx
      rw [hx]; exact hids u hu
  have hf : dfsLoop g g.dfsFuel (List.replicate g.num_vertices false) [u] []
      ≠ traversal.out_of_fuel := by
    apply dfsLoop_fuel_enough
    rw [dfsFuel_eq]
    simp
  have hd : g.depth_first u
      = dfsLoop g g.dfsFuel (List.replicate g.num_vertices false) [u] [] := by
    unfold depth_first
    rw [if_pos hu]
  rw [hd]
  refine ⟨hr, ?_⟩
  cases hres : dfsLoop g g.dfsFuel (List.replicate g.num_vertices false) [u] [] with
  | ordered l => exact ⟨l, rfl⟩
  | out_of_range => exact absurd hres hr
  | out_of_fuel => exact absurd hres hf

theorem example_graph_WF : WF example_graph := by
  unfold example_graph three_vertices
  rw [init_eq]
  decide!

theorem example_graph_ids :
    ∀ i, i < example_graph.vertex_weights.length →
      example_graph.contains i = true → i < example_graph.num_vertices := by
  unfold example_graph three_vertices
  rw [init_eq]
  decide!

theorem example_graph_edges :
    ∀ i, i < example_graph.vertex_weights.length →
      ∀ j, j < example_graph.vertex_weights.length →
        cell example_graph.adj_matrix i j ≠ 0 →
          example_graph.contains i = true ∧ example_graph.contains j = true := by
  unfold example_graph three_vertices
  rw [init_eq]
  decide!

/-- Claim C19 at the example graph of the specification, whose ids are 0, 1, 2 and
whose three edges join existing vertices, for the start 0. -/
theorem depth_first_visited_in_range_witness :
    example_graph.contains 0 = true ∧
    example_graph.depth_first 0 ≠ traversal.out_of_range ∧
    ∃ l, example_graph.depth_first 0 = traversal.ordered l :=
  have hu : example_graph.contains 0 = true := by
    unfold example_graph three_vertices
    rw [init_eq]
    decide!
  have h := depth_first_visited_in_range example_graph 0
    (fun i hi => example_graph_ids i (contains_lt _ i hi) hi)
    (fun i j hc => by
      have hi : i < example_graph.vertex_weights.length := by
        by_contra hlt
        exact hc (example_graph_WF.cell_eq_zero i j (Or.inl (by omega)))
      have hj : j < example_graph.vertex_weights.length := by
        by_contra hlt
        exact hc (example_graph_WF.cell_eq_zero i j (Or.inr (by omega)))
      exact example_graph_edges i hi j hj hc)
    hu
  ⟨hu, h.1, h.2⟩

end DirectedGraph
